import Mathlib

/-!
Verification of the TIGS board generator/balancer (`tigs.py`).

The Python source is shallowly embedded below.  Machine integers are modelled
by `Nat`/`Int` (Python integers are unbounded, so no wrap-around is needed);
Python floats appear only as the dyadic weight constants, whose arithmetic on
the integer statistics is exact, so they are modelled by `ℚ`.  Randomness
(`random.sample`, `random.randint`) is modelled by passing the drawn values as
explicit arguments, constrained by the documented contract of the drawing
function.  Exceptions are modelled by `Option`/`Except` results.  The tile
catalog (`planets.csv`, loaded by `load_tiles`) is external input data and is
modelled as a total function from tile identity to its record.
-/

namespace Tigs

/-- Cube coordinate of a hex cell: the Python triple `(q, r, s)`. -/
abbrev Coord := ℤ × ℤ × ℤ

/-- `NEIGHBORS`: coordinate offsets of the six neighbours of a hex tile,
starting one hex above and proceeding clockwise. -/
def NEIGHBORS : List Coord :=
  [(1, 0, -1), (0, 1, -1), (-1, 1, 0), (-1, 0, 1), (0, -1, 1), (1, -1, 0)]

/-- `MAX_RINGS`: maximum number of rings in a board. -/
def MAX_RINGS : ℕ := 4

/-- `MECATOL_INDEX`: tile index of Mecatol. -/
def MECATOL_INDEX : ℕ := 18

/-- `cube_add`: componentwise sum of two cube coordinates. -/
def cube_add (x y : Coord) : Coord :=
  (x.1 + y.1, x.2.1 + y.2.1, x.2.2 + y.2.2)

/-- `cube_distance`: Chebyshev distance between two cube coordinates. -/
def cube_distance (x y : Coord) : ℤ :=
  max (max |x.1 - y.1| |x.2.1 - y.2.1|) |x.2.2 - y.2.2|

/-- `cube_ring(n)`: the list of coordinates of the nth ring, built by walking
`n` steps in each of the six neighbour directions starting at `(0, -n, n)`. -/
def cube_ring (n : ℕ) : List Coord :=
  if n = 0 then [(0, 0, 0)]
  else
    (NEIGHBORS.foldl
      (fun st side =>
        (List.range n).foldl
          (fun st2 _ => (st2.1 ++ [st2.2], cube_add st2.2 side)) st)
      ([], ((0 : ℤ), (-(n : ℤ), (n : ℤ))))).1

/-- `KEEGAN_TO_COORD`: mapping from keegan index to hex coordinate, the
concatenation of `cube_ring(0)` .. `cube_ring(MAX_RINGS)`. -/
def KEEGAN_TO_COORD : List Coord :=
  ((List.range (MAX_RINGS + 1)).map cube_ring).flatten

/-- `COORD_TO_KEEGAN`: the inverse mapping, built like the Python dict
comprehension `{KEEGAN_TO_COORD[k]: k for k in range(len(KEEGAN_TO_COORD))}`
(later bindings win). -/
def COORD_TO_KEEGAN (c : Coord) : Option ℕ :=
  (List.range KEEGAN_TO_COORD.length).foldl
    (fun acc k => if KEEGAN_TO_COORD.getD k (0, 0, 0) = c then some k else acc)
    none

/-- `KEEGAN_ADJACENT`: for each keegan index, the keegan indices of the
adjacent tiles that exist in the built table, in `NEIGHBORS` order. -/
def KEEGAN_ADJACENT : List (List ℕ) :=
  (List.range KEEGAN_TO_COORD.length).map fun k =>
    NEIGHBORS.foldl
      (fun adjacent off =>
        match COORD_TO_KEEGAN (cube_add (KEEGAN_TO_COORD.getD k (0, 0, 0)) off) with
        | some j => adjacent ++ [j]
        | none => adjacent)
      []

/-- A planet record: the fields of one row of the catalog used by the core
(`resource`, `influence`). -/
structure Planet where
  resource : ℤ
  influence : ℤ
deriving DecidableEq

/-- A tile record of the catalog `TILES`: aggregated resource/influence, the
planet list, the optional skip/anomaly/wormhole tags and the home flag.
Absent tags are `none`; present tags are the (nonempty) strings of the data
file, so Python truthiness of a tag is `Option.isSome`. -/
structure Tile where
  resource : ℤ
  influence : ℤ
  planets : List Planet
  skip : Option String
  anomaly : Option String
  worm : Option String
  home : Option String
deriving DecidableEq

/-- The tile catalog: total map from tile identity to its record (`TILES`). -/
abbrev Catalog := ℕ → Tile

/-- `is_home(tile_index)`: identity `0` is a home slot, otherwise the catalog
record's home flag decides. -/
def is_home (catalog : Catalog) (tile_index : ℕ) : Bool :=
  if tile_index = 0 then true else (catalog tile_index).home.isSome

/-- The statistics accumulator `HomeStats` for one class of tiles around a
home system. -/
structure HomeStats where
  hop : ℕ
  sub_category : Option String
  resource : ℤ
  influence : ℤ
  eff_resource : ℤ
  eff_influence : ℤ
  eff_both : ℤ
  skips : List String
  worms : ℕ
  anomalies : ℕ
  planet_systems : ℕ
deriving DecidableEq

namespace HomeStats

/-- `HomeStats.reset`: zero all statistics fields. -/
def reset (s : HomeStats) : HomeStats :=
  { s with
    resource := 0, influence := 0, eff_resource := 0, eff_influence := 0,
    eff_both := 0, skips := [], worms := 0, anomalies := 0, planet_systems := 0 }

/-- `HomeStats.__init__`: fresh statistics for a hop class. -/
def init (hop : ℕ) (sub_category : Option String) : HomeStats :=
  { hop := hop, sub_category := sub_category, resource := 0, influence := 0,
    eff_resource := 0, eff_influence := 0, eff_both := 0, skips := [],
    worms := 0, anomalies := 0, planet_systems := 0 }

/-- `HomeStats.add_tile`: accumulate the statistics of one tile. -/
def add_tile (s : HomeStats) (tile : Tile) : HomeStats :=
  let s := tile.planets.foldl
    (fun s planet =>
      let s := { s with
        resource := s.resource + planet.resource,
        influence := s.influence + planet.influence }
      if planet.resource > planet.influence then
        { s with eff_resource := s.eff_resource + planet.resource }
      else if planet.resource < planet.influence then
        { s with eff_influence := s.eff_influence + planet.influence }
      else
        { s with eff_both := s.eff_both + planet.resource })
    s
  { s with
    planet_systems := s.planet_systems + (if tile.resource + tile.influence > 0 then 1 else 0),
    worms := s.worms + (if tile.worm.isSome then 1 else 0),
    anomalies := s.anomalies + (if tile.anomaly.isSome then 1 else 0),
    skips := s.skips ++ (match tile.skip with | some sk => [sk] | none => []) }

/-- `HomeStats.update`: reset, then accumulate the tile at every listed board
location whose identity is not a home slot. -/
def update (s : HomeStats) (catalog : Catalog) (tile_indices : List ℕ)
    (board : List ℕ) : HomeStats :=
  tile_indices.foldl
    (fun s i =>
      let tile_index := board.getD i 0
      if is_home catalog tile_index then s else s.add_tile (catalog tile_index))
    s.reset

/-- `HomeStats.__iadd__`: element-wise addition of another statistics object,
concatenating the skip-tag lists; the receiver keeps its own hop label. -/
def combine (s rhs : HomeStats) : HomeStats :=
  { s with
    resource := s.resource + rhs.resource,
    influence := s.influence + rhs.influence,
    eff_resource := s.eff_resource + rhs.eff_resource,
    eff_influence := s.eff_influence + rhs.eff_influence,
    eff_both := s.eff_both + rhs.eff_both,
    skips := s.skips ++ rhs.skips,
    worms := s.worms + rhs.worms,
    anomalies := s.anomalies + rhs.anomalies,
    planet_systems := s.planet_systems + rhs.planet_systems }

/-- `HomeStats.score`: dot product of the weight vector and the value vector,
then the hop-1 planet-system band penalties.  The weight and value lists are
the literal `w` and `v` of the source. -/
def score (s : HomeStats) : ℚ :=
  let w : List ℚ :=
    [3/4, 1/4, 3/4, 1/4, 1/2, if s.hop = 1 then -2 else 1/4]
  let v : List ℚ :=
    [((s.eff_resource + s.eff_both : ℤ) : ℚ), (s.resource : ℚ),
     (s.eff_influence : ℚ), (s.resource : ℚ), (s.skips.length : ℚ),
     (s.worms : ℚ)]
  let base := ((w.zip v).map fun elem => elem.1 * elem.2).sum
  if s.hop = 1 then
    base + (if s.planet_systems > 4 then -100 else 0)
         + (if s.planet_systems < 3 then -100 else 0)
  else base

/-- `HomeStats.difference`: weighted sum of absolute differences of score and
raw statistics. -/
def difference (s other : HomeStats) : ℚ :=
  1 * |s.score - other.score|
  + 1/2 * |(s.resource : ℚ) - (other.resource : ℚ)|
  + 1/2 * |(s.influence : ℚ) - (other.influence : ℚ)|
  + 5 * |(s.worms : ℚ) - (other.worms : ℚ)|
  + 5 * |(s.anomalies : ℚ) - (other.anomalies : ℚ)|
  + 5 * |(s.skips.length : ℚ) - (other.skips.length : ℚ)|

end HomeStats

/-- A home system `Home`: its player index, keegan position, coordinate,
distance table, hop classification lists and the four statistics objects.
In the Python source the statistics and the `hop2u`/`hop2c` lists are added
by `initialize_hop2_tile_lists` after construction; here they are fields
filled by `Home.initialize_hop2_tile_lists`. -/
structure Home where
  index : ℕ
  keegan : ℕ
  coord : Coord
  dist_to : List ℤ
  hop : List (List ℕ)
  hop2u : List ℕ
  hop2c : List ℕ
  stats1 : HomeStats
  stats2u : HomeStats
  stats2c : HomeStats
  stats2t : HomeStats
deriving DecidableEq

namespace Home

/-- `Home.__init__`: distances to every keegan index and the 0/1/2-hop
position lists. -/
def init (index keegan num_tiles : ℕ) : Home :=
  let coord := KEEGAN_TO_COORD.getD keegan (0, 0, 0)
  let dist_to := (List.range num_tiles).map
    (fun c => cube_distance coord (KEEGAN_TO_COORD.getD c (0, 0, 0)))
  let hop := (List.range 3).map
    (fun h => (List.range dist_to.length).filter
      (fun i => dist_to.getD i 0 = (h : ℤ)))
  { index := index, keegan := keegan, coord := coord, dist_to := dist_to,
    hop := hop, hop2u := [], hop2c := [],
    stats1 := HomeStats.init 1 none, stats2u := HomeStats.init 2 (some "U"),
    stats2c := HomeStats.init 2 (some "C"), stats2t := HomeStats.init 2 (some "T") }

/-- `Home.initialize_hop2_tile_lists`: split the 2-hop positions into
uncontested and contested against all other homes, and reset the statistics. -/
def initialize_hop2_tile_lists (self : Home) (all_homes : List Home) : Home :=
  let others := all_homes.filter (fun o => o.index ≠ self.index)
  let other_hop1 := others.flatMap (fun o => o.hop.getD 1 [])
  let other_hop2 := others.flatMap (fun o => o.hop.getD 2 [])
  { self with
    hop2u := (self.hop.getD 2 []).filter
      (fun x => ¬ x ∈ other_hop2 ∧ ¬ x ∈ other_hop1),
    hop2c := (self.hop.getD 2 []).filter
      (fun x => x ∈ other_hop2 ∧ ¬ x ∈ other_hop1),
    stats1 := HomeStats.init 1 none, stats2u := HomeStats.init 2 (some "U"),
    stats2c := HomeStats.init 2 (some "C"), stats2t := HomeStats.init 2 (some "T") }

/-- `Home.update_stats`: recompute the three ring statistics from the current
tile assignment, and the combined 2-hop view. -/
def update_stats (self : Home) (catalog : Catalog) (tiles : List ℕ) : Home :=
  let stats1 := self.stats1.update catalog (self.hop.getD 1 []) tiles
  let stats2u := self.stats2u.update catalog self.hop2u tiles
  let stats2c := self.stats2c.update catalog self.hop2c tiles
  let stats2t := (self.stats2t.reset.combine stats2u).combine stats2c
  { self with
    stats1 := stats1, stats2u := stats2u, stats2c := stats2c,
    stats2t := stats2t }

/-- `Home.score`: class-weighted sum of the three ring scores. -/
def score (self : Home) : ℚ :=
  1 * self.stats1.score + 1/4 * self.stats2u.score + 1/8 * self.stats2c.score

/-- `Home.difference`: class-weighted sum of ring differences; the last term
compares this home's uncontested ring against the other's contested ring,
exactly as in the source. -/
def difference (self other_home : Home) : ℚ :=
  1 * self.stats1.difference other_home.stats1
  + 1/8 * self.stats2c.difference other_home.stats2c
  + 1/4 * self.stats2u.difference other_home.stats2c

end Home

/-- A placeholder `Home` used only to total out-of-range list indexing in the
embedding (the Python code never indexes out of range there). -/
def dummyHome : Home := Home.init 0 0 0

/-- The board `Board`: tile assignment, unused pool and home list. -/
structure Board where
  tiles : List ℕ
  unused : List ℕ
  homes : List Home
deriving DecidableEq

/-- `itertools.combinations(range(n), 2)`: the ordered list of index pairs
`(i, j)` with `i < j < n`. -/
def combos2 (n : ℕ) : List (ℕ × ℕ) :=
  (List.range n).flatMap
    (fun i => ((List.range n).filter (fun j => i < j)).map (fun j => (i, j)))

/-- `Board.get_imbalance` on a home list: the largest pairwise difference
score between any two home systems (`0` if there are fewer than two). -/
def get_imbalance_homes (homes : List Home) : ℚ :=
  (combos2 homes.length).foldl
    (fun max_diff pair =>
      let diff := (homes.getD pair.1 dummyHome).difference (homes.getD pair.2 dummyHome)
      if diff > max_diff then diff else max_diff)
    0

namespace Board

/-- `Board.get_imbalance`. -/
def get_imbalance (self : Board) : ℚ := get_imbalance_homes self.homes

/-- `Board.update_stats`: refresh every home's statistics from the current
tile assignment. -/
def update_stats (catalog : Catalog) (self : Board) : Board :=
  { self with homes := self.homes.map (fun h => h.update_stats catalog self.tiles) }

/-- `Board.update_unused`: the non-home catalog identities not currently on
the board and not excluded. -/
def update_unused (nonhome_tiles exclude tiles : List ℕ) : List ℕ :=
  nonhome_tiles.filter (fun tile => ¬ tile ∈ tiles ∧ ¬ tile ∈ exclude)

end Board

/-- `Board.__init__` for an explicitly given tile list: detect the home
positions, build the `Home` objects and their hop-2 classification, then the
unused pool and the statistics. -/
def mkBoard (catalog : Catalog) (nonhome_tiles exclude : List ℕ)
    (board : List ℕ) : Board :=
  let tiles := board
  let num_tiles := tiles.length
  let home_keegan := (List.range tiles.length).filter
    (fun i => is_home catalog (tiles.getD i 0))
  let homes0 := home_keegan.enum.map (fun p => Home.init p.1 p.2 num_tiles)
  let homes1 := homes0.map (fun h => h.initialize_hop2_tile_lists homes0)
  let unused := Board.update_unused nonhome_tiles exclude tiles
  let homes2 := homes1.map (fun h => h.update_stats catalog tiles)
  { tiles := tiles, unused := unused, homes := homes2 }

/-- `Board.is_valid(keegan)`: the four adjacency legality checks of the
source, in order — adjacent anomalies, adjacent same-type wormholes,
legendary next to a home slot, wormhole next to a home slot. -/
def is_valid (catalog : Catalog) (tiles : List ℕ) (keegan : ℕ) : Bool :=
  let tile := catalog (tiles.getD keegan 0)
  let adjacent := (KEEGAN_ADJACENT.getD keegan []).filter (fun k => k < tiles.length)
  if tile.anomaly.isSome &&
      adjacent.any (fun k =>
        decide (0 < tiles.getD k 0) && (catalog (tiles.getD k 0)).anomaly.isSome) then
    false
  else if tile.worm.isSome &&
      adjacent.any (fun k =>
        decide (0 < tiles.getD k 0) && (tile.worm == (catalog (tiles.getD k 0)).worm)) then
    false
  else if (tile.skip == some "legend") &&
      adjacent.any (fun k => tiles.getD k 0 == 0) then
    false
  else if tile.worm.isSome &&
      adjacent.any (fun k => tiles.getD k 0 == 0) then
    false
  else
    true

/-- Each way of picking one element out of a list, paired with the remaining
list (order preserved).  Helper for `kperms`. -/
def selections : List α → List (α × List α)
  | [] => []
  | x :: xs => (x, xs) :: (selections xs).map (fun p => (p.1, x :: p.2))

/-- `itertools.permutations(pool, r)`: all length-`r` arrangements of distinct
positions of `pool`, in the iteration order of `itertools`. -/
def kperms : ℕ → List α → List (List α)
  | 0, _ => [[]]
  | r + 1, pool =>
    (selections pool).flatMap (fun p => (kperms r p.2).map (fun rest => p.1 :: rest))

/-- Write `vals[i]` at position `positions[i]` of the tile list, in order
(the placement loop of `Board.improve`). -/
def place (tiles : List ℕ) (positions vals : List ℕ) : List ℕ :=
  (positions.zip vals).foldl (fun t kv => t.set kv.1 kv.2) tiles

/-- Imbalance of a tile assignment after refreshing every home's statistics
(the `update_stats(); get_imbalance()` step of the `improve` loop). -/
def imbalanceOf (catalog : Catalog) (homes : List Home) (tiles : List ℕ) : ℚ :=
  get_imbalance_homes (homes.map (fun h => h.update_stats catalog tiles))

/-- The random-position selection loop of `Board.improve`: `stream` is the
sequence of values returned by `random.randint(1, num_tiles - 1)`; a drawn
position is rejected (and the loop retries) if it was already picked, holds a
home tile, or holds a locked tile.  Returns `none` if the stream is exhausted
before `need` positions are accepted. -/
def selectGo (catalog : Catalog) (tiles lock : List ℕ) :
    List ℕ → ℕ → List ℕ → Option (List ℕ)
  | _, 0, shuffle_keegan => some shuffle_keegan
  | [], _ + 1, _ => none
  | keegan :: rest, need + 1, shuffle_keegan =>
    if keegan ∈ shuffle_keegan ∨ is_home catalog (tiles.getD keegan 0)
        ∨ tiles.getD keegan 0 ∈ lock then
      selectGo catalog tiles lock rest (need + 1) shuffle_keegan
    else
      selectGo catalog tiles lock rest need (shuffle_keegan ++ [keegan])

/-- The selection of `FLAGS.shuffle` distinct shuffle positions in
`Board.improve`, driven by the random stream. -/
def select (catalog : Catalog) (tiles lock : List ℕ) (stream : List ℕ)
    (num_shuffle : ℕ) : Option (List ℕ) :=
  selectGo catalog tiles lock stream num_shuffle []

/-- `Board.improve` after the random position selection: lift the tiles at
the chosen positions, enumerate every arrangement of `num_shuffle` tiles from
the lifted-plus-unused pool, keep the legal arrangement with the strictly
lowest imbalance (the incumbent being the current arrangement), write the
best arrangement back and refresh statistics and the unused pool. -/
def improve (catalog : Catalog) (nonhome_tiles exclude : List ℕ)
    (self : Board) (num_shuffle : ℕ) (shuffle_keegan : List ℕ) : Board :=
  let free_tiles := shuffle_keegan.map (fun i => self.tiles.getD i 0) ++ self.unused
  let best0 : ℚ × List ℕ :=
    (self.get_imbalance, shuffle_keegan.map (fun i => self.tiles.getD i 0))
  let best := (kperms num_shuffle free_tiles).foldl
    (fun best tiles =>
      let t := place self.tiles shuffle_keegan tiles
      if ¬ (shuffle_keegan.all (fun k => is_valid catalog t k)) then best
      else
        let imbalance := imbalanceOf catalog self.homes t
        if imbalance < best.1 then (imbalance, tiles) else best)
    best0
  let final_tiles := place self.tiles shuffle_keegan best.2
  { tiles := final_tiles,
    unused := Board.update_unused nonhome_tiles exclude final_tiles,
    homes := self.homes.map (fun h => h.update_stats catalog final_tiles) }

/-- `Board.optimize(steps)`: repeatedly measure the imbalance, stop early at
zero, otherwise run one `improve` step; return the final imbalance (the
final board is returned alongside).  `shuffles` supplies each round's random
position selection. -/
def optimize (catalog : Catalog) (nonhome_tiles exclude : List ℕ)
    (num_shuffle : ℕ) : Board → List (List ℕ) → ℕ → ℚ × Board
  | board, _, 0 => (board.get_imbalance, board)
  | board, shuffles, steps + 1 =>
    let imbalance := board.get_imbalance
    if imbalance = 0 then (0, board)
    else
      optimize catalog nonhome_tiles exclude num_shuffle
        (improve catalog nonhome_tiles exclude board num_shuffle
          (shuffles.headD []))
        shuffles.tail steps

/-- Python's `list.insert(k, x)`: insert before index `k`, appending when `k`
is past the end. -/
def pyInsert (k : ℕ) (x : α) (l : List α) : List α :=
  l.take k ++ x :: l.drop k

/-- The `del all_tiles[all_tiles.index(r)]` loop of
`Board.generate_random_board`: remove the first occurrence of each required
tile, failing (Python `ValueError`) if one is absent. -/
def removeEach : List ℕ → List ℕ → Option (List ℕ)
  | [], all_tiles => some all_tiles
  | r :: rs, all_tiles =>
    if r ∈ all_tiles then removeEach rs (all_tiles.erase r) else none

/-- The fixed home-position list per player count in
`Board.generate_random_board`; `none` models the unsupported-player-count
exception. -/
def home_keegan_for (n : ℕ) : Option (List ℕ) :=
  if n = 4 then some [23, 27, 32, 36]
  else if n = 6 then some [19, 22, 25, 28, 31, 34]
  else if n = 8 then some [37, 40, 43, 46, 49, 52, 55, 58]
  else none

/-- The two failure modes of `Board.generate_random_board`. -/
inductive GenError where
  | unsupportedPlayerCount : GenError
  | valueError : GenError
deriving DecidableEq

/-- `Board.generate_random_board(n)`: pick the home positions for the player
count (failing on an unsupported count), start the tile list with Mecatol and
the required tiles, remove the required tiles from the draw pool, append the
random sample, and insert identity `0` at each home position.  `sample` is
the value drawn by `random.sample(all_tiles, num_tiles - len(tile_list) - n)`;
the guard is that function's contract (a sample of exactly the requested size,
without replacement, from the remaining pool), whose violation is its
`ValueError`. -/
def generate_random_board (nonhome_tiles require sample : List ℕ) (n : ℕ) :
    Except GenError (List ℕ) :=
  match home_keegan_for n with
  | none => .error .unsupportedPlayerCount
  | some home_keegan =>
    let num_tiles := if n ≤ 6 then 37 else 61
    let all_tiles := nonhome_tiles.filter (fun i => i ≠ MECATOL_INDEX)
    match removeEach require all_tiles with
    | none => .error .valueError
    | some rest =>
      let tile_list := MECATOL_INDEX :: require
      if sample.Nodup ∧ (∀ x ∈ sample, x ∈ rest)
          ∧ tile_list.length + sample.length + n = num_tiles then
        .ok (home_keegan.foldl (fun l k => pyInsert k 0 l) (tile_list ++ sample))
      else .error .valueError

/-! ## Scoring and difference formulas -/

/-- C4: `HomeStats.score` equals the dot product of the fixed weights with
the six values `effResource + effBoth`, `resource`, `effInfluence`,
`resource` (again), number of skip tags, and wormhole count — the wormhole
weight being `-2` for hop-1 rings and `1/4` otherwise — plus, for hop-1 rings
only, `-100` for each violated bound of the `[3, 4]` planet-system band. -/
theorem score_eq_weighted_sum (s : HomeStats) :
    s.score =
      3/4 * ((s.eff_resource : ℚ) + (s.eff_both : ℚ))
      + 1/4 * (s.resource : ℚ)
      + 3/4 * (s.eff_influence : ℚ)
      + 1/4 * (s.resource : ℚ)
      + 1/2 * (s.skips.length : ℚ)
      + (if s.hop = 1 then -2 else 1/4) * (s.worms : ℚ)
      + (if s.hop = 1 ∧ s.planet_systems > 4 then -100 else 0)
      + (if s.hop = 1 ∧ s.planet_systems < 3 then -100 else 0) := by
  unfold HomeStats.score
  by_cases h1 : s.hop = 1
  · simp only [h1, if_true, if_false, List.zip, List.zipWith, List.map,
      List.sum_cons, List.sum_nil, true_and, false_and, if_neg, reduceIte]
    split_ifs <;> push_cast <;> ring
  · simp only [h1, if_true, if_false, List.zip, List.zipWith, List.map,
      List.sum_cons, List.sum_nil, true_and, false_and, if_neg, reduceIte]
    push_cast
    ring

/-- C5: `Home.difference` is the hop-1 weight times the hop-1 statistics
difference, plus the hop-2-contested weight times the contested difference,
plus the hop-2-uncontested weight times the difference of this home's
uncontested ring against the *other home's contested* ring; in particular the
other home's uncontested ring is never consulted. -/
theorem home_difference_formula (a b : Home) (x : HomeStats) :
    a.difference b =
      1 * a.stats1.difference b.stats1
      + 1/8 * a.stats2c.difference b.stats2c
      + 1/4 * a.stats2u.difference b.stats2c
    ∧ a.difference { b with stats2u := x } = a.difference b :=
  ⟨rfl, rfl⟩

/-- Closed-form use of `home_difference_formula` at a concrete input. -/
theorem home_difference_formula_witness :
    dummyHome.difference dummyHome =
      1 * dummyHome.stats1.difference dummyHome.stats1
      + 1/8 * dummyHome.stats2c.difference dummyHome.stats2c
      + 1/4 * dummyHome.stats2u.difference dummyHome.stats2c :=
  (home_difference_formula dummyHome dummyHome (HomeStats.init 0 none)).1

/-! ## Combination of statistics (C9) -/

/-- A pair of concrete statistics objects with different skip tags. -/
def statsWithSkip (tag : String) : HomeStats :=
  { HomeStats.init 1 none with skips := [tag] }

/-- C9 counterexample: combining in the two orders does not yield states
equal in every field — the skip-tag sequences are concatenated in opposite
orders. -/
theorem combine_not_commutative :
    HomeStats.combine (statsWithSkip "a") (statsWithSkip "b")
      ≠ HomeStats.combine (statsWithSkip "b") (statsWithSkip "a") := by
  decide

/-- C9 (amended): `HomeStats.combine` is associative (full state equality),
and it is commutative on every accumulated numeric field, while the two
orders concatenate the same skip tags in opposite orders (the results are
permutations of each other, not equal lists). -/
theorem combine_assoc_and_comm_fields :
    (∀ a b c : HomeStats,
      HomeStats.combine (HomeStats.combine a b) c
        = HomeStats.combine a (HomeStats.combine b c))
    ∧ (∀ a b : HomeStats,
      (HomeStats.combine a b).resource = (HomeStats.combine b a).resource
      ∧ (HomeStats.combine a b).influence = (HomeStats.combine b a).influence
      ∧ (HomeStats.combine a b).eff_resource = (HomeStats.combine b a).eff_resource
      ∧ (HomeStats.combine a b).eff_influence = (HomeStats.combine b a).eff_influence
      ∧ (HomeStats.combine a b).eff_both = (HomeStats.combine b a).eff_both
      ∧ (HomeStats.combine a b).worms = (HomeStats.combine b a).worms
      ∧ (HomeStats.combine a b).anomalies = (HomeStats.combine b a).anomalies
      ∧ (HomeStats.combine a b).planet_systems = (HomeStats.combine b a).planet_systems
      ∧ (HomeStats.combine a b).skips.Perm ((HomeStats.combine b a).skips)) := by
  constructor
  · intro a b c
    simp [HomeStats.combine, add_assoc]
  · intro a b
    refine ⟨?_, ?_, ?_, ?_, ?_, ?_, ?_, ?_, ?_⟩ <;>
      simp [HomeStats.combine, add_comm, List.perm_append_comm]

/-! ## Coordinate system (C8) -/

/-- Repeated `cube_add` stepping, the cursor of the `cube_ring` walk. -/
def cubeIter (side : Coord) : ℕ → Coord → Coord
  | 0, c => c
  | k + 1, c => cubeIter side k (cube_add c side)

/-- The coordinates visited while walking `k` steps along one side. -/
def cubeWalk (side : Coord) : ℕ → Coord → List Coord
  | 0, _ => []
  | k + 1, c => c :: cubeWalk side k (cube_add c side)

theorem cubeIter_succ_right (side : Coord) (k : ℕ) (c : Coord) :
    cubeIter side (k + 1) c = cube_add (cubeIter side k c) side := by
  induction k generalizing c with
  | zero => rfl
  | succ k ih => rw [cubeIter, ih, cubeIter]

theorem cubeWalk_succ_right (side : Coord) (k : ℕ) (c : Coord) :
    cubeWalk side (k + 1) c = cubeWalk side k c ++ [cubeIter side k c] := by
  induction k generalizing c with
  | zero => rfl
  | succ k ih => rw [cubeWalk, ih, cubeWalk, cubeIter, List.cons_append]

theorem cubeWalk_length (side : Coord) (k : ℕ) (c : Coord) :
    (cubeWalk side k c).length = k := by
  induction k generalizing c with
  | zero => rfl
  | succ k ih => simp [cubeWalk, ih]

/-- The inner `for k in range(n)` loop of `cube_ring` appends the walk along
one side and leaves the cursor after `n` steps. -/
theorem cube_ring_inner (side : Coord) (n : ℕ) (acc : List Coord) (c : Coord) :
    (List.range n).foldl
        (fun st2 _ => (st2.1 ++ [st2.2], cube_add st2.2 side)) (acc, c)
      = (acc ++ cubeWalk side n c, cubeIter side n c) := by
  induction n generalizing acc c with
  | zero => simp [cubeWalk, cubeIter]
  | succ n ih =>
    rw [List.range_succ, List.foldl_append, ih]
    simp [cubeWalk_succ_right, cubeIter_succ_right, List.foldl]

/-- The segments contributed by each side of the ring walk. -/
def ringChunks (n : ℕ) : List Coord → Coord → List Coord
  | [], _ => []
  | side :: ss, c => cubeWalk side n c ++ ringChunks n ss (cubeIter side n c)

theorem cube_ring_outer (n : ℕ) (ns : List Coord) (acc : List Coord) (c : Coord) :
    (ns.foldl
        (fun st side =>
          (List.range n).foldl
            (fun st2 _ => (st2.1 ++ [st2.2], cube_add st2.2 side)) st)
        (acc, c)).1
      = acc ++ ringChunks n ns c := by
  induction ns generalizing acc c with
  | nil => simp [ringChunks]
  | cons side ss ih =>
    rw [List.foldl_cons, cube_ring_inner, ih, ringChunks, List.append_assoc]

theorem ringChunks_length (n : ℕ) (ns : List Coord) (c : Coord) :
    (ringChunks n ns c).length = ns.length * n := by
  induction ns generalizing c with
  | nil => simp [ringChunks]
  | cons side ss ih =>
    simp [ringChunks, cubeWalk_length, ih, Nat.succ_mul, Nat.add_comm]

theorem cube_ring_eq_chunks (n : ℕ) (hn : n ≠ 0) :
    cube_ring n = ringChunks n NEIGHBORS ((0 : ℤ), (-(n : ℤ), (n : ℤ))) := by
  rw [cube_ring, if_neg hn, cube_ring_outer]
  rfl

/-- C8: every coordinate of the built position table satisfies
`q + r + s = 0`; the position-to-coordinate table and the
coordinate-to-position map are mutual inverses over the full table; and for
every `n > 0` the ring-offset list has exactly `6 * n` coordinates and starts
at `(0, -n, n)`. -/
theorem coordinate_system_spec :
    (∀ c ∈ KEEGAN_TO_COORD, c.1 + c.2.1 + c.2.2 = 0)
    ∧ (∀ k < KEEGAN_TO_COORD.length,
        COORD_TO_KEEGAN (KEEGAN_TO_COORD.getD k (0, 0, 0)) = some k)
    ∧ (∀ c ∈ KEEGAN_TO_COORD, ∃ k, COORD_TO_KEEGAN c = some k
        ∧ KEEGAN_TO_COORD.getD k (0, 0, 0) = c)
    ∧ (∀ n : ℕ, 0 < n → (cube_ring n).length = 6 * n
        ∧ (cube_ring n).head? = some ((0 : ℤ), (-(n : ℤ), (n : ℤ)))) := by
  refine ⟨by decide, by decide, by decide, ?_⟩
  intro n hn
  rw [cube_ring_eq_chunks n (Nat.pos_iff_ne_zero.mp hn)]
  constructor
  · rw [ringChunks_length]
    rfl
  · obtain ⟨m, rfl⟩ := Nat.exists_eq_succ_of_ne_zero (Nat.pos_iff_ne_zero.mp hn)
    show (ringChunks (m + 1) NEIGHBORS _).head? = _
    rw [show NEIGHBORS = ((1 : ℤ), (0 : ℤ), (-1 : ℤ))
        :: [((0 : ℤ), (1 : ℤ), (-1 : ℤ)), (-1, 1, 0), (-1, 0, 1), (0, -1, 1), (1, -1, 0)] from rfl,
      ringChunks, cubeWalk]
    rfl

/-- Closed-form use of `coordinate_system_spec` at concrete inputs. -/
theorem coordinate_system_spec_witness :
    COORD_TO_KEEGAN (KEEGAN_TO_COORD.getD 25 (0, 0, 0)) = some 25
    ∧ (cube_ring 3).length = 6 * 3 := by
  refine ⟨coordinate_system_spec.2.1 25 (by decide), ?_⟩
  exact (coordinate_system_spec.2.2.2 3 (by decide)).1

/-! ## Legality (C3) -/

/-- C3: the legality check at a position succeeds iff all four conditions
hold against the position's neighbours: (a) an anomaly-tagged tile has no
positive-identity neighbour with an anomaly tag; (b) a wormhole-tagged tile
has no neighbour carrying the same wormhole tag (a carried tag means a
positive identity whose record bears the tag); (c) a tile whose skip tag is
the legendary marker has no home-slot neighbour; (d) a wormhole-tagged tile
has no home-slot neighbour. -/
theorem is_valid_iff (catalog : Catalog) (tiles : List ℕ) (p : ℕ) :
    is_valid catalog tiles p = true ↔
      ((catalog (tiles.getD p 0)).anomaly.isSome →
        ∀ k ∈ (KEEGAN_ADJACENT.getD p []).filter (fun k => k < tiles.length),
          0 < tiles.getD k 0 → (catalog (tiles.getD k 0)).anomaly = none)
      ∧ ((catalog (tiles.getD p 0)).worm.isSome →
        ∀ k ∈ (KEEGAN_ADJACENT.getD p []).filter (fun k => k < tiles.length),
          0 < tiles.getD k 0 →
            (catalog (tiles.getD k 0)).worm ≠ (catalog (tiles.getD p 0)).worm)
      ∧ ((catalog (tiles.getD p 0)).skip = some "legend" →
        ∀ k ∈ (KEEGAN_ADJACENT.getD p []).filter (fun k => k < tiles.length),
          tiles.getD k 0 ≠ 0)
      ∧ ((catalog (tiles.getD p 0)).worm.isSome →
        ∀ k ∈ (KEEGAN_ADJACENT.getD p []).filter (fun k => k < tiles.length),
          tiles.getD k 0 ≠ 0) := by
  unfold is_valid
  dsimp only
  split_ifs with h1 h2 h3 h4
  · simp only [Bool.false_eq_true, false_iff, not_and]
    intro hA hB hC
    simp only [Bool.and_eq_true, List.any_eq_true, decide_eq_true_eq] at h1
    obtain ⟨ha, k, hk, hpos, han⟩ := h1
    have hnone := hA ha k hk hpos
    exact absurd han (by rw [hnone]; simp)
  · simp only [Bool.false_eq_true, false_iff, not_and]
    intro hA hB
    simp only [Bool.and_eq_true, List.any_eq_true, decide_eq_true_eq,
      beq_iff_eq] at h2
    obtain ⟨hw, k, hk, hpos, heq⟩ := h2
    exact absurd heq.symm (hB hw k hk hpos)
  · simp only [Bool.false_eq_true, false_iff, not_and]
    intro hA hB hC
    simp only [Bool.and_eq_true, List.any_eq_true, beq_iff_eq] at h3
    obtain ⟨hs, k, hk, heq⟩ := h3
    exact absurd heq (hC hs k hk)
  · simp only [Bool.false_eq_true, false_iff, not_and]
    intro hA hB hC hD
    simp only [Bool.and_eq_true, List.any_eq_true, beq_iff_eq] at h4
    obtain ⟨hw, k, hk, heq⟩ := h4
    exact (hD hw k hk) heq
  · simp only [true_iff]
    simp only [Bool.and_eq_true, List.any_eq_true, decide_eq_true_eq,
      beq_iff_eq] at h1 h2 h3 h4
    push_neg at h1 h2 h3 h4
    refine ⟨?_, ?_, ?_, ?_⟩
    · intro hA k hk hpos
      have := h1 hA k hk hpos
      simpa [Option.not_isSome_iff_eq_none] using this
    · intro hw k hk hpos heq
      exact (h2 hw k hk hpos) heq.symm
    · intro hs k hk heq
      exact (h3 hs k hk) heq
    · intro hw k hk heq
      exact (h4 hw k hk) heq

/-! ## Imbalance (C6) -/

theorem stats_difference_nonneg (a b : HomeStats) : 0 ≤ a.difference b := by
  unfold HomeStats.difference
  positivity

theorem home_difference_nonneg (a b : Home) : 0 ≤ a.difference b := by
  unfold Home.difference
  have h1 := stats_difference_nonneg a.stats1 b.stats1
  have h2 := stats_difference_nonneg a.stats2c b.stats2c
  have h3 := stats_difference_nonneg a.stats2u b.stats2c
  linarith

/-- The running-maximum fold of `get_imbalance` dominates its seed and every
scanned value. -/
theorem foldl_max_ge {α : Type _} (g : α → ℚ) :
    ∀ (l : List α) (init : ℚ),
      init ≤ l.foldl (fun m a => if g a > m then g a else m) init
      ∧ ∀ a ∈ l, g a ≤ l.foldl (fun m a => if g a > m then g a else m) init := by
  intro l
  induction l with
  | nil => simp
  | cons x xs ih =>
    intro init
    rw [List.foldl_cons]
    have hstep : init ≤ (if g x > init then g x else init)
        ∧ g x ≤ (if g x > init then g x else init) := by
      constructor
      · split_ifs with h
        · exact le_of_lt h
        · exact le_refl init
      · split_ifs with h
        · exact le_refl (g x)
        · exact not_lt.mp h
    refine ⟨le_trans hstep.1 (ih _).1, ?_⟩
    intro a ha
    rcases List.mem_cons.mp ha with rfl | ha'
    · exact le_trans hstep.2 (ih _).1
    · exact (ih _).2 a ha'

theorem mem_combos2 {n i j : ℕ} : (i, j) ∈ combos2 n ↔ i < j ∧ j < n := by
  simp only [combos2, List.mem_flatMap, List.mem_map, List.mem_filter,
    List.mem_range, decide_eq_true_eq]
  constructor
  · rintro ⟨a, _, b, ⟨hb, hab⟩, heq⟩
    injection heq with h1 h2
    subst h1
    subst h2
    exact ⟨hab, hb⟩
  · rintro ⟨hij, hj⟩
    exact ⟨i, lt_trans hij hj, j, ⟨hj, hij⟩, rfl⟩

/-- C6 (amended): a board with zero imbalance has zero difference for every
pair of home profiles in the order scanned by `get_imbalance` — that is,
`homes[i].difference(homes[j]) = 0` for every `i < j`.  (The reversed
differences `homes[j].difference(homes[i])` are not scanned and need not be
zero; see the counterexample.) -/
theorem imbalance_zero_pair_differences (b : Board) (h : b.get_imbalance = 0)
    (i j : ℕ) (hij : i < j) (hj : j < b.homes.length) :
    (b.homes.getD i dummyHome).difference (b.homes.getD j dummyHome) = 0 := by
  have hmem : (i, j) ∈ combos2 b.homes.length := mem_combos2.mpr ⟨hij, hj⟩
  have hfold :
      b.get_imbalance
        = (combos2 b.homes.length).foldl
            (fun m a =>
              if (b.homes.getD a.1 dummyHome).difference (b.homes.getD a.2 dummyHome) > m
              then (b.homes.getD a.1 dummyHome).difference (b.homes.getD a.2 dummyHome)
              else m) 0 := rfl
  have hle :=
    (foldl_max_ge
      (fun a : ℕ × ℕ =>
        (b.homes.getD a.1 dummyHome).difference (b.homes.getD a.2 dummyHome))
      (combos2 b.homes.length) 0).2 (i, j) hmem
  have hnn :=
    home_difference_nonneg (b.homes.getD i dummyHome) (b.homes.getD j dummyHome)
  rw [← hfold, h] at hle
  linarith

/-- A planet-free tile with no tags. -/
def blankTile : Tile :=
  { resource := 0, influence := 0, planets := [], skip := none,
    anomaly := none, worm := none, home := none }

/-- A tile with one 1-resource planet and no tags. -/
def planetTile : Tile :=
  { resource := 1, influence := 0, planets := [{ resource := 1, influence := 0 }],
    skip := none, anomaly := none, worm := none, home := none }

/-- A two-tile catalog: identity 2 is the planet tile, everything else is
blank. -/
def catalogC6 : Catalog := fun t => if t = 2 then planetTile else blankTile

/-- A 37-cell board with homes at keegan 19 and 28 and the planet tile at
keegan 4, which lies in home 1's uncontested 2-hop ring. -/
def tilesC6 : List ℕ :=
  (List.range 37).map
    (fun i => if i = 19 ∨ i = 28 then 0 else if i = 4 then 2 else 1)

/-- The `Board` built from `tilesC6`. -/
def boardC6 : Board := mkBoard catalogC6 [1, 2] [] tilesC6

theorem boardC6_homes_len : boardC6.homes.length = 2 := by decide

theorem boardC6_stats :
    (boardC6.homes.getD 0 dummyHome).stats1 = HomeStats.init 1 none
    ∧ (boardC6.homes.getD 1 dummyHome).stats1 = HomeStats.init 1 none
    ∧ (boardC6.homes.getD 0 dummyHome).stats2c = HomeStats.init 2 (some "C")
    ∧ (boardC6.homes.getD 1 dummyHome).stats2c = HomeStats.init 2 (some "C")
    ∧ (boardC6.homes.getD 0 dummyHome).stats2u = HomeStats.init 2 (some "U")
    ∧ (boardC6.homes.getD 1 dummyHome).stats2u =
        { HomeStats.init 2 (some "U") with
          resource := 1, eff_resource := 1, planet_systems := 1 } := by
  refine ⟨?_, ?_, ?_, ?_, ?_, ?_⟩ <;> decide

theorem boardC6_imbalance : boardC6.get_imbalance = 0 := by
  obtain ⟨e1, e2, e3, e4, e5, _⟩ := boardC6_stats
  show get_imbalance_homes boardC6.homes = 0
  unfold get_imbalance_homes
  rw [boardC6_homes_len, show combos2 2 = [(0, 1)] from by decide]
  simp only [List.foldl_cons, List.foldl_nil]
  rw [Home.difference, e1, e2, e3, e4, e5]
  norm_num [HomeStats.difference, HomeStats.score, HomeStats.init,
    List.zipWith, List.sum_cons, List.sum_nil]

theorem boardC6_reverse_difference :
    (boardC6.homes.getD 1 dummyHome).difference (boardC6.homes.getD 0 dummyHome)
      = 7/16 := by
  obtain ⟨e1, e2, e3, e4, _, e6⟩ := boardC6_stats
  rw [Home.difference, e2, e1, e4, e3, e6]
  norm_num [HomeStats.difference, HomeStats.score, HomeStats.init,
    List.zipWith, List.sum_cons, List.sum_nil, abs_of_nonneg]

/-- C6 counterexample: a board whose imbalance is `0` on which the pair of
home profiles taken in the reversed order has a nonzero difference, so zero
imbalance does not force `b.difference(a) = 0` for all pairs. -/
theorem imbalance_zero_not_all_pairs :
    boardC6.get_imbalance = 0
    ∧ (boardC6.homes.getD 1 dummyHome).difference (boardC6.homes.getD 0 dummyHome)
        ≠ 0 := by
  refine ⟨boardC6_imbalance, ?_⟩
  rw [boardC6_reverse_difference]
  norm_num

/-- Closed-form use of `imbalance_zero_pair_differences` at a concrete
zero-imbalance board. -/
theorem imbalance_zero_pair_differences_witness :
    (boardC6.homes.getD 0 dummyHome).difference (boardC6.homes.getD 1 dummyHome)
      = 0 :=
  imbalance_zero_pair_differences boardC6 boardC6_imbalance 0 1 (by decide)
    (by rw [boardC6_homes_len]; decide)

/-! ## Random board generation (C1, C7) -/

theorem pyInsert_length {α : Type _} (k : ℕ) (x : α) (l : List α)
    (h : k ≤ l.length) : (pyInsert k x l).length = l.length + 1 := by
  simp only [pyInsert, List.length_append, List.length_take, List.length_cons,
    List.length_drop]
  omega

theorem pyInsert_getElem_lt {α : Type _} {k j : ℕ} (x : α) (l : List α)
    (hk : k ≤ l.length) (hj : j < k) : (pyInsert k x l)[j]? = l[j]? := by
  rw [pyInsert, List.getElem?_append_left
    (by simp only [List.length_take]; omega), List.getElem?_take_of_lt hj]

theorem pyInsert_getElem_self {α : Type _} {k : ℕ} (x : α) (l : List α)
    (hk : k ≤ l.length) : (pyInsert k x l)[k]? = some x := by
  rw [pyInsert, List.getElem?_append_right
    (by simp only [List.length_take]; omega)]
  simp only [List.length_take, Nat.min_eq_left hk, Nat.sub_self,
    List.getElem?_cons_zero]

theorem pyInsert_count {α : Type _} [DecidableEq α] (k : ℕ) (x : α)
    (l : List α) : (pyInsert k x l).count x = l.count x + 1 := by
  rw [pyInsert, List.count_append, List.count_cons_self, ← Nat.add_assoc,
    ← List.count_append, List.take_append_drop]

theorem pyInsert_mem {α : Type _} {y : α} (k : ℕ) (x : α) (l : List α)
    (h : y ∈ l) : y ∈ pyInsert k x l := by
  rw [pyInsert]
  rcases List.mem_append.mp ((List.take_append_drop k l) ▸ h) with h' | h'
  · exact List.mem_append_left _ h'
  · exact List.mem_append_right _ (List.mem_cons_of_mem x h')

/-- In-range condition for a sequence of Python `insert` calls: each index is
at most the length of the list it is inserted into. -/
def okInserts : List ℕ → ℕ → Prop
  | [], _ => True
  | k :: ks, len => k ≤ len ∧ okInserts ks (len + 1)

instance okInserts.instDecidable :
    ∀ (ks : List ℕ) (len : ℕ), Decidable (okInserts ks len)
  | [], _ => .isTrue trivial
  | k :: ks, len =>
    have : Decidable (okInserts ks (len + 1)) := okInserts.instDecidable ks (len + 1)
    inferInstanceAs (Decidable (k ≤ len ∧ okInserts ks (len + 1)))

theorem foldl_pyInsert_length {α : Type _} (x : α) :
    ∀ (ks : List ℕ) (l : List α), okInserts ks l.length →
      (ks.foldl (fun l k => pyInsert k x l) l).length = l.length + ks.length := by
  intro ks
  induction ks with
  | nil => simp
  | cons k ks ih =>
    intro l h
    obtain ⟨hk, hrest⟩ := h
    rw [List.foldl_cons,
      ih (pyInsert k x l) (by rw [pyInsert_length k x l hk]; exact hrest),
      pyInsert_length k x l hk, List.length_cons]
    omega

theorem foldl_pyInsert_count {α : Type _} [DecidableEq α] (x : α) :
    ∀ (ks : List ℕ) (l : List α),
      (ks.foldl (fun l k => pyInsert k x l) l).count x = l.count x + ks.length := by
  intro ks
  induction ks with
  | nil => simp
  | cons k ks ih =>
    intro l
    rw [List.foldl_cons, ih (pyInsert k x l), pyInsert_count, List.length_cons]
    omega

theorem foldl_pyInsert_mem {α : Type _} {y : α} (x : α) :
    ∀ (ks : List ℕ) (l : List α), y ∈ l →
      y ∈ ks.foldl (fun l k => pyInsert k x l) l := by
  intro ks
  induction ks with
  | nil => exact fun l h => h
  | cons k ks ih => exact fun l h => ih (pyInsert k x l) (pyInsert_mem k x l h)

theorem foldl_pyInsert_preserve {α : Type _} (x : α) :
    ∀ (ks : List ℕ) (l : List α) (p : ℕ), (∀ j ∈ ks, p < j) →
      okInserts ks l.length →
      (ks.foldl (fun l k => pyInsert k x l) l)[p]? = l[p]? := by
  intro ks
  induction ks with
  | nil => intro l p _ _; rfl
  | cons k ks ih =>
    intro l p hlt h
    obtain ⟨hk, hrest⟩ := h
    rw [List.foldl_cons,
      ih (pyInsert k x l) p (fun j hj => hlt j (List.mem_cons_of_mem k hj))
        (by rw [pyInsert_length k x l hk]; exact hrest),
      pyInsert_getElem_lt x l hk (hlt k (List.mem_cons_self k ks))]

theorem foldl_pyInsert_get {α : Type _} (x : α) :
    ∀ (ks : List ℕ) (l : List α), List.Pairwise (· < ·) ks →
      okInserts ks l.length →
      ∀ k ∈ ks, (ks.foldl (fun l k => pyInsert k x l) l)[k]? = some x := by
  intro ks
  induction ks with
  | nil => intro l _ _ k hk; cases hk
  | cons k0 ks ih =>
    intro l hpair h k hk
    obtain ⟨hk0, hrest⟩ := h
    rcases List.mem_cons.mp hk with rfl | hk'
    · rw [List.foldl_cons,
        foldl_pyInsert_preserve x ks (pyInsert k x l) k
          (fun j hj => (List.pairwise_cons.mp hpair).1 j hj)
          (by rw [pyInsert_length k x l hk0]; exact hrest),
        pyInsert_getElem_self x l hk0]
    · rw [List.foldl_cons]
      exact ih (pyInsert k0 x l) (List.pairwise_cons.mp hpair).2
        (by rw [pyInsert_length k0 x l hk0]; exact hrest) k hk'

theorem removeEach_subset :
    ∀ (rs acc out : List ℕ), removeEach rs acc = some out →
      ∀ x ∈ out, x ∈ acc := by
  intro rs
  induction rs with
  | nil =>
    intro acc out h x hx
    simp only [removeEach] at h
    injection h with h'
    rw [h']
    exact hx
  | cons r rs ih =>
    intro acc out h x hx
    rw [removeEach] at h
    split_ifs at h with hr
    · exact List.mem_of_mem_erase (ih (acc.erase r) out h x hx)

theorem removeEach_require_mem :
    ∀ (rs acc out : List ℕ), removeEach rs acc = some out →
      ∀ r ∈ rs, r ∈ acc := by
  intro rs
  induction rs with
  | nil => intro acc out _ r hr; cases hr
  | cons r0 rs ih =>
    intro acc out h r hr
    rw [removeEach] at h
    split_ifs at h with hr0
    · rcases List.mem_cons.mp hr with rfl | hr'
      · exact hr0
      · exact List.mem_of_mem_erase (ih (acc.erase r0) out h r hr')

/-- Combined effect of the home-slot insertion loop on a base tile list that
contains no `0`. -/
theorem gen_build_spec (L hk : List ℕ) (hL0 : L.count 0 = 0)
    (hpair : List.Pairwise (· < ·) hk) (hok : okInserts hk L.length) :
    (hk.foldl (fun l k => pyInsert k 0 l) L).length = L.length + hk.length
    ∧ (hk.foldl (fun l k => pyInsert k 0 l) L).count 0 = hk.length
    ∧ (∀ y ∈ L, y ∈ hk.foldl (fun l k => pyInsert k 0 l) L)
    ∧ (∀ k ∈ hk, (hk.foldl (fun l k => pyInsert k 0 l) L)[k]? = some 0) := by
  refine ⟨foldl_pyInsert_length 0 hk L hok, ?_, ?_, ?_⟩
  · rw [foldl_pyInsert_count 0 hk L, hL0, Nat.zero_add]
  · exact fun y hy => foldl_pyInsert_mem 0 hk L hy
  · exact foldl_pyInsert_get 0 hk L hpair hok

instance exceptDecEq {ε α : Type _} [DecidableEq ε] [DecidableEq α] :
    DecidableEq (Except ε α) := fun a b =>
  match a, b with
  | .error e, .error f =>
    if h : e = f then .isTrue (by rw [h])
    else .isFalse (fun hc => h (by injection hc))
  | .error _, .ok _ => .isFalse (fun hc => Except.noConfusion hc)
  | .ok _, .error _ => .isFalse (fun hc => Except.noConfusion hc)
  | .ok x, .ok y =>
    if h : x = y then .isTrue (by rw [h])
    else .isFalse (fun hc => h (by injection hc))

/-- C1: whenever random board generation succeeds, the produced tile
sequence has length 37 for 4 or 6 players and 61 for 8 players, contains
identity `0` exactly `n` times and at each configured home position for that
player count, contains the Mecatol identity, and contains every required
identity.  (`0 ∉ nonhome_tiles` is the catalog property that identity `0`,
the reserved home-slot marker, is not a drawable non-home tile.) -/
theorem generate_random_board_spec
    (nonhome_tiles require sample : List ℕ) (n : ℕ) (res : List ℕ)
    (h0 : (0 : ℕ) ∉ nonhome_tiles)
    (hgen : generate_random_board nonhome_tiles require sample n = .ok res) :
    res.length = (if n ≤ 6 then 37 else 61)
    ∧ res.count 0 = n
    ∧ MECATOL_INDEX ∈ res
    ∧ (∀ r ∈ require, r ∈ res)
    ∧ (∃ hk, home_keegan_for n = some hk ∧ ∀ k ∈ hk, res[k]? = some 0) := by
  unfold generate_random_board at hgen
  rcases hhk : home_keegan_for n with _ | hk
  · rw [hhk] at hgen
    exact absurd hgen (by simp)
  rw [hhk] at hgen
  dsimp only at hgen
  rcases hre : removeEach require (nonhome_tiles.filter (fun i => i ≠ MECATOL_INDEX))
    with _ | rest
  · rw [hre] at hgen
    exact absurd hgen (by simp)
  rw [hre] at hgen
  dsimp only at hgen
  -- facts independent of the player count
  have hreq_nonhome : ∀ r ∈ require, r ∈ nonhome_tiles := fun r hr =>
    List.mem_of_mem_filter (removeEach_require_mem require _ rest hre r hr)
  have hsam_nonhome : (∀ x ∈ sample, x ∈ rest) → ∀ x ∈ sample, x ∈ nonhome_tiles :=
    fun hsam x hx =>
      List.mem_of_mem_filter (removeEach_subset require _ rest hre x (hsam x hx))
  have hL0 : (∀ x ∈ sample, x ∈ rest) →
      ((MECATOL_INDEX :: require) ++ sample).count 0 = 0 := by
    intro hsam
    refine List.count_eq_zero.mpr ?_
    intro hmem
    rcases List.mem_append.mp hmem with h' | h'
    · rcases List.mem_cons.mp h' with h'' | h''
      · exact absurd h'' (by decide)
      · exact h0 (hreq_nonhome 0 h'')
    · exact h0 (hsam_nonhome hsam 0 h')
  -- the three supported player counts
  have hn : n = 4 ∨ n = 6 ∨ n = 8 := by
    by_contra hcontra
    push_neg at hcontra
    unfold home_keegan_for at hhk
    rw [if_neg hcontra.1, if_neg hcontra.2.1, if_neg hcontra.2.2] at hhk
    exact absurd hhk (by simp)
  rcases hn with rfl | rfl | rfl
  · have hk_eq : hk = [23, 27, 32, 36] :=
      Option.some.inj (hhk.symm.trans (by decide))
    subst hk_eq
    rw [show (if (4 : ℕ) ≤ 6 then (37 : ℕ) else 61) = 37 from rfl] at hgen
    split_ifs at hgen with hcond
    · obtain ⟨hnodup, hsam, harith⟩ := hcond
      injection hgen with hres
      rw [← hres]
      have hLlen : ((MECATOL_INDEX :: require) ++ sample).length = 33 := by
        simp only [List.length_append, List.length_cons] at harith ⊢
        omega
      have key := gen_build_spec ((MECATOL_INDEX :: require) ++ sample)
        [23, 27, 32, 36] (hL0 hsam) (by decide) (by rw [hLlen]; decide)
      refine ⟨?_, ?_, ?_, ?_, [23, 27, 32, 36], hhk, key.2.2.2⟩
      · rw [key.1, hLlen]
        rfl
      · rw [key.2.1]
        rfl
      · exact key.2.2.1 MECATOL_INDEX
          (List.mem_append_left _ (List.mem_cons_self _ _))
      · exact fun r hr =>
          key.2.2.1 r (List.mem_append_left _ (List.mem_cons_of_mem _ hr))
  · have hk_eq : hk = [19, 22, 25, 28, 31, 34] :=
      Option.some.inj (hhk.symm.trans (by decide))
    subst hk_eq
    rw [show (if (6 : ℕ) ≤ 6 then (37 : ℕ) else 61) = 37 from rfl] at hgen
    split_ifs at hgen with hcond
    · obtain ⟨hnodup, hsam, harith⟩ := hcond
      injection hgen with hres
      rw [← hres]
      have hLlen : ((MECATOL_INDEX :: require) ++ sample).length = 31 := by
        simp only [List.length_append, List.length_cons] at harith ⊢
        omega
      have key := gen_build_spec ((MECATOL_INDEX :: require) ++ sample)
        [19, 22, 25, 28, 31, 34] (hL0 hsam) (by decide) (by rw [hLlen]; decide)
      refine ⟨?_, ?_, ?_, ?_, [19, 22, 25, 28, 31, 34], hhk, key.2.2.2⟩
      · rw [key.1, hLlen]
        rfl
      · rw [key.2.1]
        rfl
      · exact key.2.2.1 MECATOL_INDEX
          (List.mem_append_left _ (List.mem_cons_self _ _))
      · exact fun r hr =>
          key.2.2.1 r (List.mem_append_left _ (List.mem_cons_of_mem _ hr))
  · have hk_eq : hk = [37, 40, 43, 46, 49, 52, 55, 58] :=
      Option.some.inj (hhk.symm.trans (by decide))
    subst hk_eq
    rw [show (if (8 : ℕ) ≤ 6 then (37 : ℕ) else 61) = 61 from rfl] at hgen
    split_ifs at hgen with hcond
    · obtain ⟨hnodup, hsam, harith⟩ := hcond
      injection hgen with hres
      rw [← hres]
      have hLlen : ((MECATOL_INDEX :: require) ++ sample).length = 53 := by
        simp only [List.length_append, List.length_cons] at harith ⊢
        omega
      have key := gen_build_spec ((MECATOL_INDEX :: require) ++ sample)
        [37, 40, 43, 46, 49, 52, 55, 58] (hL0 hsam) (by decide) (by rw [hLlen]; decide)
      refine ⟨?_, ?_, ?_, ?_, [37, 40, 43, 46, 49, 52, 55, 58], hhk, key.2.2.2⟩
      · rw [key.1, hLlen]
        rfl
      · rw [key.2.1]
        rfl
      · exact key.2.2.1 MECATOL_INDEX
          (List.mem_append_left _ (List.mem_cons_self _ _))
      · exact fun r hr =>
          key.2.2.1 r (List.mem_append_left _ (List.mem_cons_of_mem _ hr))

/-- C7: random board generation for any player count other than 4, 6 or 8
fails with the unsupported-player-count error irrespective of every other
input (the check precedes all other work), and generation for 4, 6 or 8
never produces that error. -/
theorem unsupported_player_count_spec
    (nonhome_tiles require sample : List ℕ) (n : ℕ) :
    (¬ (n = 4 ∨ n = 6 ∨ n = 8) →
      generate_random_board nonhome_tiles require sample n
        = .error .unsupportedPlayerCount)
    ∧ ((n = 4 ∨ n = 6 ∨ n = 8) →
      generate_random_board nonhome_tiles require sample n
        ≠ .error .unsupportedPlayerCount) := by
  constructor
  · intro hbad
    push_neg at hbad
    unfold generate_random_board home_keegan_for
    rw [if_neg hbad.1, if_neg hbad.2.1, if_neg hbad.2.2]
  · intro hgood hgen
    have hsome : ∃ hk, home_keegan_for n = some hk := by
      rcases hgood with rfl | rfl | rfl <;> exact ⟨_, rfl⟩
    obtain ⟨hk, hhk⟩ := hsome
    unfold generate_random_board at hgen
    rw [hhk] at hgen
    dsimp only at hgen
    rcases hre : removeEach require (nonhome_tiles.filter (fun i => i ≠ MECATOL_INDEX))
      with _ | rest <;> rw [hre] at hgen <;> dsimp only at hgen
    · exact absurd hgen (by simp)
    · split_ifs at hgen <;> exact absurd hgen (by simp)

/-- Concrete non-home catalog list, requirement set and sample for the
generation witnesses. -/
def nonhomeW : List ℕ := (List.range 41).filter (fun i => i ≠ 0)

/-- A concrete 31-tile sample drawn from `nonhomeW` minus Mecatol and the
required tile. -/
def sampleW : List ℕ :=
  ((List.range 34).filter (fun i => i ≠ 0 ∧ i ≠ 18)).take 31

/-- Closed-form use of `generate_random_board_spec` on a concrete 4-player
draw. -/
theorem generate_random_board_spec_witness :
    ∃ res, generate_random_board nonhomeW [40] sampleW 4 = .ok res
      ∧ res.count 0 = 4 := by
  cases hres : generate_random_board nonhomeW [40] sampleW 4 with
  | error e => cases e <;> exact absurd hres (by decide)
  | ok res =>
    exact ⟨res, rfl,
      (generate_random_board_spec nonhomeW [40] sampleW 4 res (by decide) hres).2.1⟩

/-- Closed-form use of `unsupported_player_count_spec` at player counts 5
and 4. -/
theorem unsupported_player_count_spec_witness :
    generate_random_board [] [] [] 5 = .error .unsupportedPlayerCount
    ∧ generate_random_board [9] [] [] 4 ≠ .error .unsupportedPlayerCount :=
  ⟨(unsupported_player_count_spec [] [] [] 5).1 (by decide),
   (unsupported_player_count_spec [9] [] [] 4).2 (Or.inl rfl)⟩

/-! ## The optimizer (C2, C10) -/

theorem set_getD_self {α : Type _} (d : α) :
    ∀ (t : List α) (k : ℕ), t.set k (t.getD k d) = t := by
  intro t
  induction t with
  | nil => intro k; rfl
  | cons a t ih =>
    intro k
    cases k with
    | zero => rfl
    | succ k => simp only [List.set_cons_succ, List.getD_cons_succ, ih]

theorem place_cons (t : List ℕ) (k : ℕ) (v : ℕ) (sk vs : List ℕ) :
    place t (k :: sk) (v :: vs) = place (t.set k v) sk vs := rfl

theorem place_self (t : List ℕ) :
    ∀ sk : List ℕ, place t sk (sk.map (fun i => t.getD i 0)) = t := by
  intro sk
  induction sk generalizing t with
  | nil => rfl
  | cons k sk ih =>
    rw [List.map_cons, place_cons, set_getD_self]
    exact ih t

theorem place_length (sk : List ℕ) :
    ∀ (vs t : List ℕ), (place t sk vs).length = t.length := by
  induction sk with
  | nil => intro vs t; rfl
  | cons k sk ih =>
    intro vs t
    cases vs with
    | nil => rfl
    | cons v vs => rw [place_cons, ih, List.length_set]

theorem place_frame (sk : List ℕ) :
    ∀ (vs t : List ℕ) (p : ℕ), p ∉ sk → (place t sk vs)[p]? = t[p]? := by
  induction sk with
  | nil => intro vs t p _; rfl
  | cons k sk ih =>
    intro vs t p hp
    cases vs with
    | nil => rfl
    | cons v vs =>
      rw [place_cons, ih vs (t.set k v) p (fun h => hp (List.mem_cons_of_mem k h)),
        List.getElem?_set_ne
          (fun h => hp (by rw [← h]; exact List.mem_cons_self k sk))]

theorem place_value_mem (sk : List ℕ) :
    ∀ (vs t : List ℕ) (p : ℕ),
      (place t sk vs)[p]? = t[p]? ∨ ∃ v ∈ vs, (place t sk vs)[p]? = some v := by
  induction sk with
  | nil => intro vs t p; exact Or.inl rfl
  | cons k sk ih =>
    intro vs t p
    cases vs with
    | nil => exact Or.inl rfl
    | cons v vs =>
      rw [place_cons]
      rcases ih vs (t.set k v) p with h | ⟨w, hw, h⟩
      · rw [h]
        by_cases hk : k = p
        · subst hk
          by_cases hlen : k < t.length
          · exact Or.inr ⟨v, List.mem_cons_self v vs, by
              rw [List.getElem?_set_self hlen]⟩
          · rw [List.getElem?_set, if_pos rfl, if_neg hlen]
            exact Or.inl (by rw [List.getElem?_eq_none (Nat.le_of_not_lt hlen)])
        · rw [List.getElem?_set_ne hk]
          exact Or.inl rfl
      · exact Or.inr ⟨w, List.mem_cons_of_mem v hw, h⟩

theorem selections_mem {α : Type _} :
    ∀ (l : List α) (p : α × List α), p ∈ selections l →
      p.1 ∈ l ∧ ∀ y ∈ p.2, y ∈ l := by
  intro l
  induction l with
  | nil => intro p hp; cases hp
  | cons x xs ih =>
    intro p hp
    rcases List.mem_cons.mp hp with rfl | hp'
    · exact ⟨List.mem_cons_self x xs, fun y hy => List.mem_cons_of_mem x hy⟩
    · rw [List.mem_map] at hp'
      obtain ⟨q, hq, rfl⟩ := hp'
      obtain ⟨hq1, hq2⟩ := ih q hq
      refine ⟨List.mem_cons_of_mem x hq1, ?_⟩
      intro y hy
      rcases List.mem_cons.mp hy with rfl | hy'
      · exact List.mem_cons_self y xs
      · exact List.mem_cons_of_mem x (hq2 y hy')

theorem kperms_mem {α : Type _} :
    ∀ (r : ℕ) (pool : List α) (perm : List α), perm ∈ kperms r pool →
      ∀ x ∈ perm, x ∈ pool := by
  intro r
  induction r with
  | zero =>
    intro pool perm hperm x hx
    rw [kperms, List.mem_singleton] at hperm
    subst hperm
    cases hx
  | succ r ih =>
    intro pool perm hperm x hx
    rw [kperms, List.mem_flatMap] at hperm
    obtain ⟨p, hp, hperm⟩ := hperm
    rw [List.mem_map] at hperm
    obtain ⟨rest, hrest, rfl⟩ := hperm
    obtain ⟨hp1, hp2⟩ := selections_mem pool p hp
    rcases List.mem_cons.mp hx with rfl | hx'
    · exact hp1
    · exact hp2 x (ih p.2 rest hrest x hx')

/-- A fold preserves any invariant its step preserves. -/
theorem foldl_preserves {α β : Type _} (f : β → α → β) (P : β → Prop) :
    ∀ (l : List α) (b : β), P b → (∀ b a, P b → P (f b a)) → P (l.foldl f b) := by
  intro l
  induction l with
  | nil => intro b hb _; exact hb
  | cons x xs ih => intro b hb hstep; exact ih (f b x) (hstep b x hb) hstep

theorem HomeStats.add_tile_hop (s : HomeStats) (t : Tile) :
    (s.add_tile t).hop = s.hop ∧ (s.add_tile t).sub_category = s.sub_category := by
  unfold HomeStats.add_tile
  dsimp only
  generalize s = s0
  induction t.planets generalizing s0 with
  | nil => exact ⟨rfl, rfl⟩
  | cons p ps ih =>
    rw [List.foldl_cons]
    split_ifs <;> exact ih _

theorem HomeStats.update_hop (s : HomeStats) (catalog : Catalog)
    (idx board : List ℕ) :
    (s.update catalog idx board).hop = s.hop
    ∧ (s.update catalog idx board).sub_category = s.sub_category := by
  unfold HomeStats.update
  have : ∀ (l : List ℕ) (s0 : HomeStats), s0.hop = s.hop →
      s0.sub_category = s.sub_category →
      (l.foldl (fun s i =>
        if is_home catalog (board.getD i 0) then s
        else s.add_tile (catalog (board.getD i 0))) s0).hop = s.hop
      ∧ (l.foldl (fun s i =>
        if is_home catalog (board.getD i 0) then s
        else s.add_tile (catalog (board.getD i 0))) s0).sub_category
          = s.sub_category := by
    intro l
    induction l with
    | nil => intro s0 h1 h2; exact ⟨h1, h2⟩
    | cons i l ih =>
      intro s0 h1 h2
      rw [List.foldl_cons]
      split_ifs
      · exact ih s0 h1 h2
      · exact ih _ ((HomeStats.add_tile_hop s0 _).1.trans h1)
          ((HomeStats.add_tile_hop s0 _).2.trans h2)
  exact this idx s.reset rfl rfl

theorem HomeStats.reset_congr {x y : HomeStats} (h1 : x.hop = y.hop)
    (h2 : x.sub_category = y.sub_category) : x.reset = y.reset := by
  cases x
  cases y
  simp only [HomeStats.reset, HomeStats.mk.injEq] at h1 h2 ⊢
  simp [h1, h2]

theorem HomeStats.update_congr {x y : HomeStats} (catalog : Catalog)
    (idx board : List ℕ) (h : x.reset = y.reset) :
    x.update catalog idx board = y.update catalog idx board := by
  unfold HomeStats.update
  rw [h]

theorem HomeStats.update_idem (s : HomeStats) (catalog : Catalog)
    (idx board : List ℕ) :
    (s.update catalog idx board).update catalog idx board
      = s.update catalog idx board :=
  HomeStats.update_congr catalog idx board
    (HomeStats.reset_congr (HomeStats.update_hop s catalog idx board).1
      (HomeStats.update_hop s catalog idx board).2)

theorem HomeStats.combine_hop (a b : HomeStats) :
    (a.combine b).hop = a.hop ∧ (a.combine b).sub_category = a.sub_category :=
  ⟨rfl, rfl⟩

theorem Home.update_stats_idem (h : Home) (catalog : Catalog) (tiles : List ℕ) :
    (h.update_stats catalog tiles).update_stats catalog tiles
      = h.update_stats catalog tiles := by
  unfold Home.update_stats
  dsimp only
  simp only [Home.mk.injEq, and_true, true_and]
  refine ⟨HomeStats.update_idem _ _ _ _, HomeStats.update_idem _ _ _ _,
    HomeStats.update_idem _ _ _ _, ?_⟩
  -- the combined 2-hop view: the receiver of `reset` changed but has the
  -- same hop label, and the combined statistics are rebuilt from the same
  -- (idempotent) ring updates
  rw [HomeStats.update_idem, HomeStats.update_idem,
    show (((h.stats2t.reset.combine
          (h.stats2u.update catalog h.hop2u tiles)).combine
            (h.stats2c.update catalog h.hop2c tiles)).reset)
        = h.stats2t.reset
      from HomeStats.reset_congr rfl rfl]

theorem Board.update_stats_eq_self (catalog : Catalog) (b : Board)
    (h : b.homes.map (fun hh => hh.update_stats catalog b.tiles) = b.homes) :
    b.update_stats catalog = b := by
  unfold Board.update_stats
  cases b
  simp only at h
  simp only [Board.mk.injEq, true_and, and_true]
  exact h

theorem Board.improve_update_stats (catalog : Catalog)
    (nonhome_tiles exclude : List ℕ) (b : Board) (num_shuffle : ℕ)
    (sk : List ℕ) :
    (improve catalog nonhome_tiles exclude b num_shuffle sk).update_stats catalog
      = improve catalog nonhome_tiles exclude b num_shuffle sk := by
  have key : ∀ (H : List Home) (t : List ℕ),
      (H.map (fun hh => hh.update_stats catalog t)).map
          (fun hh => hh.update_stats catalog t)
        = H.map (fun hh => hh.update_stats catalog t) := by
    intro H t
    rw [List.map_map]
    exact List.map_congr_left (fun hh _ => Home.update_stats_idem hh catalog t)
  exact Board.update_stats_eq_self catalog _ (key b.homes _)

/-- Invariant maintained by the best-arrangement fold of `Board.improve`:
the recorded imbalance is the imbalance of placing the recorded arrangement,
it never exceeds the starting imbalance, and it is either the untouched
original arrangement or a strict improvement. -/
def improveInv (catalog : Catalog) (b : Board) (sk : List ℕ)
    (best : ℚ × List ℕ) : Prop :=
  imbalanceOf catalog b.homes (place b.tiles sk best.2) = best.1
  ∧ best.1 ≤ b.get_imbalance
  ∧ (place b.tiles sk best.2 = b.tiles ∨ best.1 < b.get_imbalance)

theorem get_imbalance_nonneg (b : Board) : 0 ≤ b.get_imbalance :=
  (foldl_max_ge
    (fun a : ℕ × ℕ =>
      (b.homes.getD a.1 dummyHome).difference (b.homes.getD a.2 dummyHome))
    (combos2 b.homes.length) 0).1

theorem improve_spec (catalog : Catalog) (nonhome_tiles exclude : List ℕ)
    (b : Board) (num_shuffle : ℕ) (sk : List ℕ)
    (hsync : b.update_stats catalog = b) :
    ((improve catalog nonhome_tiles exclude b num_shuffle sk).tiles = b.tiles
      ∧ (improve catalog nonhome_tiles exclude b num_shuffle sk).get_imbalance
          = b.get_imbalance)
    ∨ (improve catalog nonhome_tiles exclude b num_shuffle sk).get_imbalance
        < b.get_imbalance := by
  have hhomes : b.homes.map (fun hh => hh.update_stats catalog b.tiles) = b.homes := by
    have h := congrArg Board.homes hsync
    simpa [Board.update_stats] using h
  have himbofb : imbalanceOf catalog b.homes b.tiles = b.get_imbalance := by
    unfold imbalanceOf Board.get_imbalance
    rw [hhomes]
  have hbase : improveInv catalog b sk
      (b.get_imbalance, List.map (fun i => b.tiles.getD i 0) sk) := by
    refine ⟨?_, le_refl _, Or.inl (place_self b.tiles sk)⟩
    rw [place_self b.tiles sk]
    exact himbofb
  have hstep : ∀ (best : ℚ × List ℕ) (perm : List ℕ),
      improveInv catalog b sk best →
      improveInv catalog b sk
        ((fun best tiles =>
          let t := place b.tiles sk tiles
          if ¬ (sk.all fun k => is_valid catalog t k) then best
          else
            let imbalance := imbalanceOf catalog b.homes t
            if imbalance < best.1 then (imbalance, tiles) else best) best perm) := by
    intro best perm hB
    dsimp only
    by_cases hval : ¬ (sk.all fun k => is_valid catalog (place b.tiles sk perm) k)
    · rw [if_pos hval]
      exact hB
    · rw [if_neg hval]
      by_cases himb : imbalanceOf catalog b.homes (place b.tiles sk perm) < best.1
      · rw [if_pos himb]
        exact ⟨rfl, le_trans (le_of_lt himb) hB.2.1,
          Or.inr (lt_of_lt_of_le himb hB.2.1)⟩
      · rw [if_neg himb]
        exact hB
  have hfold := foldl_preserves _ (improveInv catalog b sk)
    (kperms num_shuffle (List.map (fun i => b.tiles.getD i 0) sk ++ b.unused))
    (b.get_imbalance, List.map (fun i => b.tiles.getD i 0) sk) hbase hstep
  have key : ∀ B : ℚ × List ℕ, improveInv catalog b sk B →
      ∀ out : Board, out.tiles = place b.tiles sk B.2 →
      out.homes = b.homes.map
        (fun hh => hh.update_stats catalog (place b.tiles sk B.2)) →
      ((out.tiles = b.tiles ∧ out.get_imbalance = b.get_imbalance)
        ∨ out.get_imbalance < b.get_imbalance) := by
    intro B hB out htiles hhomes2
    have hgi : out.get_imbalance
        = imbalanceOf catalog b.homes (place b.tiles sk B.2) := by
      unfold Board.get_imbalance imbalanceOf
      rw [hhomes2]
    rcases hB.2.2 with heq | hlt
    · exact Or.inl ⟨by rw [htiles, heq], by rw [hgi, heq, himbofb]⟩
    · exact Or.inr (by rw [hgi, hB.1]; exact hlt)
  exact key _ hfold _ rfl rfl

theorem improve_le (catalog : Catalog) (nonhome_tiles exclude : List ℕ)
    (b : Board) (num_shuffle : ℕ) (sk : List ℕ)
    (hsync : b.update_stats catalog = b) :
    (improve catalog nonhome_tiles exclude b num_shuffle sk).get_imbalance
      ≤ b.get_imbalance := by
  rcases improve_spec catalog nonhome_tiles exclude b num_shuffle sk hsync with
    ⟨_, heq⟩ | hlt
  · exact le_of_eq heq
  · exact le_of_lt hlt

theorem optimize_le (catalog : Catalog) (nonhome_tiles exclude : List ℕ)
    (num_shuffle : ℕ) :
    ∀ (steps : ℕ) (b : Board) (shuffles : List (List ℕ)),
      b.update_stats catalog = b →
      (optimize catalog nonhome_tiles exclude num_shuffle b shuffles steps).1
        ≤ b.get_imbalance := by
  intro steps
  induction steps with
  | zero => intro b shuffles _; exact le_of_eq rfl
  | succ st ih =>
    intro b shuffles hsync
    rw [optimize]
    split_ifs with h0
    · rw [h0]
    · exact le_trans
        (ih (improve catalog nonhome_tiles exclude b num_shuffle
          (shuffles.headD [])) shuffles.tail
          (Board.improve_update_stats catalog nonhome_tiles exclude b
            num_shuffle (shuffles.headD [])))
        (improve_le catalog nonhome_tiles exclude b num_shuffle
          (shuffles.headD []) hsync)

theorem optimize_snd (catalog : Catalog) (nonhome_tiles exclude : List ℕ)
    (num_shuffle : ℕ) :
    ∀ (steps : ℕ) (b : Board) (shuffles : List (List ℕ)),
      (optimize catalog nonhome_tiles exclude num_shuffle b shuffles steps).2.get_imbalance
        = (optimize catalog nonhome_tiles exclude num_shuffle b shuffles steps).1 := by
  intro steps
  induction steps with
  | zero => intro b shuffles; rfl
  | succ st ih =>
    intro b shuffles
    rw [optimize]
    split_ifs with h0
    · exact h0
    · exact ih _ _

/-- C2: on a board whose statistics agree with its tile assignment (as every
board produced by the constructor or by `improve` does), `optimize` over zero
rounds returns exactly the current imbalance, `optimize` over any number of
rounds and any random draws never returns more than the imbalance before the
call, and a single `improve` step either leaves the tile assignment exactly
as it was (with the imbalance unchanged) or strictly lowers the imbalance. -/
theorem optimize_improve_monotone (catalog : Catalog)
    (nonhome_tiles exclude : List ℕ) (num_shuffle : ℕ) (b : Board)
    (shuffles : List (List ℕ)) (steps : ℕ)
    (hsync : b.update_stats catalog = b) :
    (optimize catalog nonhome_tiles exclude num_shuffle b shuffles 0).1
        = b.get_imbalance
    ∧ (optimize catalog nonhome_tiles exclude num_shuffle b shuffles steps).1
        ≤ b.get_imbalance
    ∧ (optimize catalog nonhome_tiles exclude num_shuffle
          b shuffles steps).2.get_imbalance
        ≤ b.get_imbalance
    ∧ ∀ sk : List ℕ,
        ((improve catalog nonhome_tiles exclude b num_shuffle sk).tiles = b.tiles
          ∧ (improve catalog nonhome_tiles exclude b num_shuffle sk).get_imbalance
              = b.get_imbalance)
        ∨ (improve catalog nonhome_tiles exclude b num_shuffle sk).get_imbalance
            < b.get_imbalance :=
  ⟨rfl, optimize_le catalog nonhome_tiles exclude num_shuffle steps b shuffles hsync,
   by
     rw [optimize_snd catalog nonhome_tiles exclude num_shuffle steps b shuffles]
     exact optimize_le catalog nonhome_tiles exclude num_shuffle steps b shuffles hsync,
   fun sk => improve_spec catalog nonhome_tiles exclude b num_shuffle sk hsync⟩

/-- A fold over a list preserves any invariant its step preserves on the
list's members. -/
theorem foldl_preserves_mem {α β : Type _} (f : β → α → β) (P : β → Prop) :
    ∀ (l : List α) (b : β), P b → (∀ b a, a ∈ l → P b → P (f b a)) →
      P (l.foldl f b) := by
  intro l
  induction l with
  | nil => intro b hb _; exact hb
  | cons x xs ih =>
    intro b hb hstep
    exact ih (f b x) (hstep b x (List.mem_cons_self x xs) hb)
      (fun b a ha hPb => hstep b a (List.mem_cons_of_mem x ha) hPb)

theorem selectGo_spec (catalog : Catalog) (tiles lock : List ℕ) :
    ∀ (stream : List ℕ) (need : ℕ) (acc out : List ℕ),
      (∀ x ∈ stream, 1 ≤ x ∧ x < tiles.length) →
      acc.Nodup →
      (∀ k ∈ acc, 1 ≤ k ∧ k < tiles.length
        ∧ is_home catalog (tiles.getD k 0) = false ∧ tiles.getD k 0 ∉ lock) →
      selectGo catalog tiles lock stream need acc = some out →
      out.Nodup
      ∧ ∀ k ∈ out, 1 ≤ k ∧ k < tiles.length
          ∧ is_home catalog (tiles.getD k 0) = false ∧ tiles.getD k 0 ∉ lock := by
  intro stream
  induction stream with
  | nil =>
    intro need acc out _ hnd hacc hsel
    cases need with
    | zero =>
      rw [selectGo] at hsel
      injection hsel with h
      subst h
      exact ⟨hnd, hacc⟩
    | succ need => exact absurd hsel (by rw [selectGo]; simp)
  | cons x rest ih =>
    intro need acc out hstream hnd hacc hsel
    have hstream' : ∀ y ∈ rest, 1 ≤ y ∧ y < tiles.length :=
      fun y hy => hstream y (List.mem_cons_of_mem x hy)
    cases need with
    | zero =>
      rw [selectGo] at hsel
      injection hsel with h
      subst h
      exact ⟨hnd, hacc⟩
    | succ need =>
      rw [selectGo] at hsel
      split_ifs at hsel with hrej
      · exact ih (need + 1) acc out hstream' hnd hacc hsel
      · push_neg at hrej
        obtain ⟨hx1, hx2⟩ := hstream x (List.mem_cons_self x rest)
        have hnd' : (acc ++ [x]).Nodup := by
          rw [List.nodup_append]
          exact ⟨hnd, List.nodup_singleton x,
            fun a ha hax => hrej.1 (by
              rw [List.mem_singleton] at hax
              exact hax ▸ ha)⟩
        have hacc' : ∀ k ∈ acc ++ [x], 1 ≤ k ∧ k < tiles.length
            ∧ is_home catalog (tiles.getD k 0) = false
            ∧ tiles.getD k 0 ∉ lock := by
          intro k hk
          rcases List.mem_append.mp hk with hk' | hk'
          · exact hacc k hk'
          · rw [List.mem_singleton] at hk'
            subst hk'
            exact ⟨hx1, hx2, Bool.not_eq_true _ ▸ hrej.2.1, hrej.2.2⟩
        exact ih need (acc ++ [x]) out hstream' hnd' hacc' hsel

theorem select_spec (catalog : Catalog) (tiles lock stream : List ℕ)
    (num_shuffle : ℕ) (sk : List ℕ)
    (hstream : ∀ x ∈ stream, 1 ≤ x ∧ x < tiles.length)
    (hsel : select catalog tiles lock stream num_shuffle = some sk) :
    sk.Nodup
    ∧ ∀ k ∈ sk, 1 ≤ k ∧ k < tiles.length
        ∧ is_home catalog (tiles.getD k 0) = false ∧ tiles.getD k 0 ∉ lock :=
  selectGo_spec catalog tiles lock stream num_shuffle [] sk hstream
    List.nodup_nil (fun k hk => absurd hk (List.not_mem_nil k)) hsel

/-- C10: with the shuffle positions drawn by the selection loop (the stream
being `random.randint(1, num_tiles - 1)` values), `improve` changes the tile
sequence only at the chosen positions: every other entry is unchanged; the
chosen positions are never position 0, never hold a home tile and never hold
a locked identity at selection time; and the home positions and their
identities are identical before and after the call. -/
theorem improve_frame (catalog : Catalog)
    (nonhome_tiles exclude lock : List ℕ) (b : Board) (num_shuffle : ℕ)
    (stream sk : List ℕ)
    (hstream : ∀ x ∈ stream, 1 ≤ x ∧ x < b.tiles.length)
    (hunused : ∀ t ∈ b.unused, is_home catalog t = false)
    (hsel : select catalog b.tiles lock stream num_shuffle = some sk) :
    (∀ p, p ∉ sk →
      (improve catalog nonhome_tiles exclude b num_shuffle sk).tiles[p]?
        = b.tiles[p]?)
    ∧ (∀ k ∈ sk, k ≠ 0
        ∧ is_home catalog (b.tiles.getD k 0) = false
        ∧ b.tiles.getD k 0 ∉ lock)
    ∧ (∀ p, is_home catalog
          ((improve catalog nonhome_tiles exclude b num_shuffle sk).tiles.getD p 0)
        = is_home catalog (b.tiles.getD p 0))
    ∧ (∀ p, is_home catalog (b.tiles.getD p 0) = true →
        (improve catalog nonhome_tiles exclude b num_shuffle sk).tiles.getD p 0
          = b.tiles.getD p 0) := by
  obtain ⟨hnodup, hprops⟩ :=
    select_spec catalog b.tiles lock stream num_shuffle sk hstream hsel
  have hbase : ∀ v ∈ (List.map (fun i => b.tiles.getD i 0) sk),
      is_home catalog v = false := by
    intro v hv
    rw [List.mem_map] at hv
    obtain ⟨k, hk, rfl⟩ := hv
    exact (hprops k hk).2.2.1
  have hstep : ∀ (best : ℚ × List ℕ) (perm : List ℕ),
      perm ∈ kperms num_shuffle
        (List.map (fun i => b.tiles.getD i 0) sk ++ b.unused) →
      (∀ v ∈ best.2, is_home catalog v = false) →
      (∀ v ∈ ((fun best tiles =>
          let t := place b.tiles sk tiles
          if ¬ (sk.all fun k => is_valid catalog t k) then best
          else
            let imbalance := imbalanceOf catalog b.homes t
            if imbalance < best.1 then (imbalance, tiles) else best)
          best perm).2, is_home catalog v = false) := by
    intro best perm hperm hB
    dsimp only
    by_cases hval : ¬ (sk.all fun k => is_valid catalog (place b.tiles sk perm) k)
    · rw [if_pos hval]
      exact hB
    · rw [if_neg hval]
      by_cases himb : imbalanceOf catalog b.homes (place b.tiles sk perm) < best.1
      · rw [if_pos himb]
        intro v hv
        rcases List.mem_append.mp
          (kperms_mem num_shuffle _ perm hperm v hv) with h' | h'
        · exact hbase v h'
        · exact hunused v h'
      · rw [if_neg himb]
        exact hB
  have hfold := foldl_preserves_mem _
    (fun best : ℚ × List ℕ => ∀ v ∈ best.2, is_home catalog v = false)
    (kperms num_shuffle (List.map (fun i => b.tiles.getD i 0) sk ++ b.unused))
    ((b : Board).get_imbalance, List.map (fun i => b.tiles.getD i 0) sk)
    hbase hstep
  have key : ∀ B : ℚ × List ℕ, (∀ v ∈ B.2, is_home catalog v = false) →
      ∀ out : Board, out.tiles = place b.tiles sk B.2 →
      (∀ p, p ∉ sk → out.tiles[p]? = b.tiles[p]?)
      ∧ (∀ k ∈ sk, k ≠ 0
          ∧ is_home catalog (b.tiles.getD k 0) = false
          ∧ b.tiles.getD k 0 ∉ lock)
      ∧ (∀ p, is_home catalog (out.tiles.getD p 0)
          = is_home catalog (b.tiles.getD p 0))
      ∧ (∀ p, is_home catalog (b.tiles.getD p 0) = true →
          out.tiles.getD p 0 = b.tiles.getD p 0) := by
    intro B hB out htiles
    have hframe : ∀ p, p ∉ sk → out.tiles[p]? = b.tiles[p]? := by
      intro p hp
      rw [htiles]
      exact place_frame sk B.2 b.tiles p hp
    have hhome_eq : ∀ p, is_home catalog (out.tiles.getD p 0)
        = is_home catalog (b.tiles.getD p 0) := by
      intro p
      by_cases hp : p ∈ sk
      · have hRHS : is_home catalog (b.tiles.getD p 0) = false :=
          (hprops p hp).2.2.1
        rw [hRHS, htiles]
        rcases place_value_mem sk B.2 b.tiles p with hcase | ⟨v, hv, hcase⟩
        · rw [List.getD_eq_getElem?_getD, hcase, ← List.getD_eq_getElem?_getD]
          exact hRHS
        · rw [List.getD_eq_getElem?_getD, hcase]
          exact hB v hv
      · rw [List.getD_eq_getElem?_getD, hframe p hp, ← List.getD_eq_getElem?_getD]
    refine ⟨hframe, ?_, hhome_eq, ?_⟩
    · intro k hk
      obtain ⟨h1, _, h3, h4⟩ := hprops k hk
      exact ⟨Nat.one_le_iff_ne_zero.mp h1, h3, h4⟩
    · intro p hph
      have hp : p ∉ sk := by
        intro hmem
        rw [(hprops p hmem).2.2.1] at hph
        exact Bool.false_ne_true hph
      rw [List.getD_eq_getElem?_getD, hframe p hp, ← List.getD_eq_getElem?_getD]
  exact key _ hfold _ rfl

/-- An all-blank catalog for the optimizer witnesses. -/
def catalogW : Catalog := fun _ => blankTile

/-- A 7-cell board (centre plus first ring) with homes at keegan 1 and 4. -/
def tilesW : List ℕ := [18, 0, 1, 1, 0, 1, 1]

/-- The `Board` built from `tilesW`. -/
def boardW : Board := mkBoard catalogW [1] [] tilesW

/-- Closed-form use of `optimize_improve_monotone` at a concrete board. -/
theorem optimize_improve_monotone_witness :
    boardW.update_stats catalogW = boardW
    ∧ (optimize catalogW [1] [] 1 boardW [] 0).1 = boardW.get_imbalance
    ∧ (optimize catalogW [1] [] 1 boardW [] 0).1 ≤ boardW.get_imbalance
    ∧ (optimize catalogW [1] [] 1 boardW [] 0).2.get_imbalance
        ≤ boardW.get_imbalance
    ∧ (((improve catalogW [1] [] boardW 1 [2]).tiles = boardW.tiles
        ∧ (improve catalogW [1] [] boardW 1 [2]).get_imbalance
            = boardW.get_imbalance)
      ∨ (improve catalogW [1] [] boardW 1 [2]).get_imbalance
          < boardW.get_imbalance) := by
  have hsync : boardW.update_stats catalogW = boardW := by decide
  have h := optimize_improve_monotone catalogW [1] [] 1 boardW [] 0 hsync
  exact ⟨hsync, h.1, h.2.1, h.2.2.1, h.2.2.2 [2]⟩

/-- Closed-form use of `improve_frame` at a concrete board, stream and
position. -/
theorem improve_frame_witness :
    select catalogW boardW.tiles [] [2] 1 = some [2]
    ∧ (improve catalogW [1] [] boardW 1 [2]).tiles[3]? = boardW.tiles[3]? := by
  have h1 : ∀ x ∈ ([2] : List ℕ), 1 ≤ x ∧ x < boardW.tiles.length := by decide
  have h2 : ∀ t ∈ boardW.unused, is_home catalogW t = false := by decide
  have h3 : select catalogW boardW.tiles [] [2] 1 = some [2] := by decide
  exact ⟨h3,
    (improve_frame catalogW [1] [] [] boardW 1 [2] [2] h1 h2 h3).1 3 (by decide)⟩

end Tigs
